import Mathlib

set_option maxRecDepth 40000

/-!
Verification of the PageMedic discovery route (`src/app/api/discover/route.ts`,
provided as `src/unnamed/part_000`) against its specification.

The development shallowly embeds the route's pure logic in Lean:

* `cleanUrl`, `isNonHtmlResource` and the URL accessors are modelled on top of a
  simplified WHATWG-style URL parser `parseURL` that handles hierarchical
  `scheme://…` URLs: the scheme is everything before the first `://` (it must be
  nonempty, start with a letter, and consist of letters, digits, `+`, `-`, `.`),
  the fragment is everything after the first `#` that follows the scheme
  separator, and serialization is the verbatim concatenation of the parts.
  Strings that do not have this shape fail to parse, which models `new URL(...)`
  throwing.  Host-case normalization, default-port elision and percent-encoding
  are not modelled; none of the verified properties depend on them.
* The sitemap regex scans (`extractSitemapUrls`, `parseSitemapUrls`) are
  modelled as explicit character scanners with the same search behaviour as the
  source regexes (case-insensitive tag search, lazy closing-tag match).
* The SSE helper `createSSEResponse` is modelled as a state machine `SSEState`.
* The `GET` handler's discovery logic is modelled as the pure function
  `discover`, which also records ghost observations (the frontier enqueue log,
  the per-page visit log, and the externally visible actions such as browser
  navigations and sitemap fetches) used to state temporal claims.
  Event `message` strings and the `currentUrl` field are presentational and are
  not modelled.
-/

namespace PageMedic

/-! ## Generic character-list scanning utilities -/

/-- Case-sensitive substring test, modelling JavaScript `String.includes`. -/
def subStr (pat : List Char) : List Char → Bool
  | [] => pat.isPrefixOf []
  | c :: cs => pat.isPrefixOf (c :: cs) || subStr pat cs

/-- Case-insensitive prefix test (ASCII folding via `Char.toLower`). -/
def ciPref : List Char → List Char → Bool
  | [], _ => true
  | _ :: _, [] => false
  | p :: ps, c :: cs => (p.toLower == c.toLower) && ciPref ps cs

/-- Split a character list at the first case-insensitive occurrence of `pat`,
returning the part before the match and the part after it. -/
def splitAtPatCI (pat : List Char) : List Char → Option (List Char × List Char)
  | [] => none
  | c :: cs =>
    if ciPref pat (c :: cs) then some ([], (c :: cs).drop pat.length)
    else match splitAtPatCI pat cs with
      | none => none
      | some (b, a) => some (c :: b, a)

theorem splitAtPatCI_length {pat l b a : List Char} (hp : pat ≠ [])
    (h : splitAtPatCI pat l = some (b, a)) : a.length < l.length := by
  induction l generalizing b with
  | nil => simp [splitAtPatCI] at h
  | cons c cs ih =>
    rw [splitAtPatCI] at h
    split at h
    · obtain ⟨rfl, rfl⟩ := by simpa using h
      have : 1 ≤ pat.length := by
        cases pat with
        | nil => exact absurd rfl hp
        | cons _ _ => simp
      simp only [List.length_drop, List.length_cons]
      omega
    · revert h
      split
      · intro h; exact absurd h (by simp)
      · next b' a' heq =>
        intro h
        obtain ⟨rfl, rfl⟩ := by simpa using h
        have := ih heq
        simp only [List.length_cons]
        omega

/-- JavaScript `String.trim`: drop whitespace from both ends. -/
def trimChars (l : List Char) : List Char :=
  ((l.dropWhile Char.isWhitespace).reverse.dropWhile Char.isWhitespace).reverse

/-! ## URL model -/

/-- A parsed hierarchical URL: `scheme://rest` optionally followed by
`#fragment`.  `rest` (authority, path and query) contains no `#`. -/
structure URLRec where
  scheme : List Char
  rest : List Char
  fragment : Option (List Char)
  deriving DecidableEq, Repr

/-- Characters allowed in a URL scheme. -/
def isSchemeChar (c : Char) : Bool :=
  c.isAlphanum || c == '+' || c == '-' || c == '.'

/-- Split a character list at the first occurrence of `://`, returning the part
before it (the scheme candidate) and the part after it. -/
def splitScheme : List Char → Option (List Char × List Char)
  | [] => none
  | c :: cs =>
    if c = ':' ∧ cs.take 2 = ['/', '/'] then some ([], cs.drop 2)
    else match splitScheme cs with
      | none => none
      | some (b, a) => some (c :: b, a)

/-- Split a character list at the first `#`: the part before it and, when a `#`
is present, the characters after it. -/
def splitFrag : List Char → List Char × Option (List Char)
  | [] => ([], none)
  | c :: cs =>
    if c = '#' then ([], some cs)
    else (c :: (splitFrag cs).1, (splitFrag cs).2)

/-- Scheme-candidate validity: nonempty, starts with a letter, and every
character is a scheme character. -/
def validScheme (s : List Char) : Bool :=
  match s with
  | [] => false
  | c :: _ => c.isAlpha && s.all isSchemeChar

/-- Parse a character list as a hierarchical URL; `none` models `new URL(...)`
throwing. -/
def parseChars (l : List Char) : Option URLRec :=
  (splitScheme l).bind fun p =>
    if validScheme p.1 then some ⟨p.1, (splitFrag p.2).1, (splitFrag p.2).2⟩
    else none

/-- Parse a string as a URL (see `parseChars`). -/
def parseURL (s : String) : Option URLRec :=
  parseChars s.data

/-- Serialize a parsed URL back to its string form. -/
def serializeURL (r : URLRec) : String :=
  String.mk (r.scheme ++ ':' :: '/' :: '/' ::
    (r.rest ++ match r.fragment with | none => [] | some f => '#' :: f))

/-- `cleanUrl` from the source: parse the URL, clear its hash, and serialize;
on parse failure the input is returned unchanged. -/
def cleanUrl (url : String) : String :=
  match parseURL url with
  | none => url
  | some r => serializeURL { r with fragment := none }

/-- The `host` portion of a parsed URL: the `rest` up to the first `/` or `?`. -/
def hostOf (r : URLRec) : List Char :=
  r.rest.takeWhile (fun c => !(c == '/' || c == '?'))

/-- `new URL(u).origin`: `scheme://host`. -/
def originOf (r : URLRec) : String :=
  String.mk (r.scheme ++ ':' :: '/' :: '/' :: hostOf r)

/-- `new URL(u).pathname`: the part of `rest` from the first `/` up to the
first `?`; `/` when the rest has no path. -/
def pathnameOf (r : URLRec) : List Char :=
  let p := (r.rest.takeWhile (fun c => !(c == '?'))).dropWhile (fun c => !(c == '/'))
  if p = [] then ['/'] else p

/-- JavaScript `String.startsWith`. -/
def jsStartsWith (s pre : String) : Bool :=
  pre.data.isPrefixOf s.data

/-- JavaScript `String.endsWith`. -/
def jsEndsWith (s suf : String) : Bool :=
  suf.data.isSuffixOf s.data

/-- `NON_HTML_EXTENSIONS` from the source. -/
def NON_HTML_EXTENSIONS : List String :=
  [".pdf", ".doc", ".docx", ".xls", ".xlsx", ".ppt", ".pptx",
   ".zip", ".rar", ".7z", ".tar", ".gz",
   ".mp3", ".mp4", ".avi", ".mov", ".wmv", ".wav", ".ogg",
   ".jpg", ".jpeg", ".png", ".gif", ".webp", ".svg", ".ico", ".bmp", ".tiff",
   ".css", ".js", ".json", ".txt", ".csv",
   ".woff", ".woff2", ".ttf", ".eot", ".otf"]

/-- `isNonHtmlResource` from the source: the lowercased pathname ends with one
of the listed extensions; parse failure yields `false`. -/
def isNonHtmlResource (url : String) : Bool :=
  match parseURL url with
  | none => false
  | some r =>
    let pathname := (pathnameOf r).map Char.toLower
    NON_HTML_EXTENSIONS.any (fun ext => ext.data.isSuffixOf pathname)

/-! ## URL model lemmas -/

theorem splitScheme_sound {l b a : List Char} (h : splitScheme l = some (b, a)) :
    l = b ++ ':' :: '/' :: '/' :: a := by
  induction l generalizing b with
  | nil => simp [splitScheme] at h
  | cons c cs ih =>
    rw [splitScheme] at h
    split at h
    · next hc =>
      obtain ⟨rfl, rfl⟩ := by simpa using h
      obtain ⟨rfl, htake⟩ := hc
      have := List.take_append_drop 2 cs
      rw [htake] at this
      simpa using this.symm
    · revert h
      split
      · intro h; exact absurd h (by simp)
      · next b' a' heq =>
        intro h
        obtain ⟨rfl, rfl⟩ := by simpa using h
        simpa using ih heq

theorem splitScheme_append {b : List Char} (a : List Char)
    (hb : ∀ c ∈ b, c ≠ ':') :
    splitScheme (b ++ ':' :: '/' :: '/' :: a) = some (b, a) := by
  induction b with
  | nil => simp [splitScheme]
  | cons c bs ih =>
    have hc : c ≠ ':' := hb c (by simp)
    rw [List.cons_append, splitScheme]
    rw [if_neg (by simp [hc]), ih (fun x hx => hb x (by simp [hx]))]

theorem splitFrag_sound {l : List Char} :
    l = (splitFrag l).1 ++
      (match (splitFrag l).2 with | none => [] | some g => '#' :: g) ∧
    '#' ∉ (splitFrag l).1 := by
  induction l with
  | nil => simp [splitFrag]
  | cons c cs ih =>
    rw [splitFrag]
    split
    · next hc => subst hc; simp
    · next hc =>
      refine ⟨by simpa using ih.1, ?_⟩
      simp only [List.mem_cons, not_or]
      exact ⟨fun h => hc h.symm, ih.2⟩

theorem splitFrag_noHash {l : List Char} (h : '#' ∉ l) :
    splitFrag l = (l, none) := by
  induction l with
  | nil => simp [splitFrag]
  | cons c cs ih =>
    have hc : c ≠ '#' := fun hc => h (hc ▸ List.mem_cons_self c cs)
    rw [splitFrag, if_neg (fun hcc => hc hcc)]
    simp [ih (fun hm => h (List.mem_cons_of_mem c hm))]

theorem validScheme_not_colon_hash {s : List Char} (hv : validScheme s = true) :
    ∀ c ∈ s, c ≠ ':' ∧ c ≠ '#' := by
  intro c hc
  cases s with
  | nil => simp [validScheme] at hv
  | cons d ds =>
    simp only [validScheme, Bool.and_eq_true, List.all_eq_true] at hv
    have hchar : isSchemeChar c = true := hv.2 c hc
    constructor
    · rintro rfl; simp [isSchemeChar] at hchar
    · rintro rfl; simp [isSchemeChar] at hchar

theorem parseChars_sound {l : List Char} {r : URLRec}
    (h : parseChars l = some r) :
    validScheme r.scheme = true ∧ '#' ∉ r.rest ∧
      l = r.scheme ++ ':' :: '/' :: '/' ::
        (r.rest ++ match r.fragment with | none => [] | some g => '#' :: g) := by
  unfold parseChars at h
  rw [Option.bind_eq_some] at h
  obtain ⟨⟨sch, after⟩, hs, h⟩ := h
  split at h
  · next hv =>
    obtain rfl := by simpa using h.symm
    refine ⟨hv, (splitFrag_sound (l := after)).2, ?_⟩
    have hdec := (splitFrag_sound (l := after)).1
    rw [splitScheme_sound hs]
    simp [← hdec]
  · simp at h

theorem parseChars_serialize {sch rest : List Char}
    (hv : validScheme sch = true) (hr : '#' ∉ rest) :
    parseChars (sch ++ ':' :: '/' :: '/' :: rest) = some ⟨sch, rest, none⟩ := by
  unfold parseChars
  rw [splitScheme_append rest (fun c hc => (validScheme_not_colon_hash hv c hc).1)]
  simp [Option.bind, hv, splitFrag_noHash hr]

theorem cleanUrl_eq_of_parse {u : String} {r : URLRec} (h : parseURL u = some r) :
    cleanUrl u = String.mk (r.scheme ++ ':' :: '/' :: '/' :: r.rest) := by
  unfold cleanUrl
  rw [h]
  simp [serializeURL]

theorem parse_cleanUrl {u : String} {r : URLRec} (h : parseURL u = some r) :
    parseURL (cleanUrl u) = some ⟨r.scheme, r.rest, none⟩ := by
  obtain ⟨hv, hr, _⟩ := parseChars_sound (l := u.data) h
  rw [cleanUrl_eq_of_parse h]
  exact parseChars_serialize hv hr

theorem cleanUrl_hashFree {u : String} {r : URLRec} (h : parseURL u = some r) :
    '#' ∉ (cleanUrl u).data := by
  obtain ⟨hv, hr, _⟩ := parseChars_sound (l := u.data) h
  rw [cleanUrl_eq_of_parse h]
  intro hmem
  have hmem' : '#' ∈ r.scheme ∨ '#' = ':' ∨ '#' = '/' ∨ '#' ∈ r.rest := by
    simpa [List.mem_append, List.mem_cons, or_assoc] using hmem
  rcases hmem' with hm | hm | hm | hm
  · exact (validScheme_not_colon_hash hv '#' hm).2 rfl
  · exact absurd hm (by decide)
  · exact absurd hm (by decide)
  · exact hr hm

theorem cleanUrl_idem (u : String) : cleanUrl (cleanUrl u) = cleanUrl u := by
  cases h : parseURL u with
  | none =>
    have : cleanUrl u = u := by unfold cleanUrl; rw [h]
    rw [this]
    exact this
  | some r =>
    have h2 := parse_cleanUrl h
    rw [cleanUrl_eq_of_parse h2, cleanUrl_eq_of_parse h]

theorem cleanUrl_of_noHash {u : String} {r : URLRec} (h : parseURL u = some r)
    (hh : '#' ∉ u.data) : cleanUrl u = u := by
  obtain ⟨hv, hr, hdec⟩ := parseChars_sound (l := u.data) h
  have hfrag : r.fragment = none := by
    cases hf : r.fragment with
    | none => rfl
    | some g =>
      exfalso
      apply hh
      rw [hdec, hf]
      simp
  apply String.ext
  rw [cleanUrl_eq_of_parse h, hdec, hfrag]
  simp

/-- Claim C3, fragment-independence half: two parseable URL strings whose
parses agree on scheme and rest (they differ only in the fragment) clean to
the same string. -/
theorem cleanUrl_fragment_indep {u1 u2 : String} {r1 r2 : URLRec}
    (h1 : parseURL u1 = some r1) (h2 : parseURL u2 = some r2)
    (hs : r1.scheme = r2.scheme) (hr : r1.rest = r2.rest) :
    cleanUrl u1 = cleanUrl u2 := by
  rw [cleanUrl_eq_of_parse h1, cleanUrl_eq_of_parse h2, hs, hr]

/-! ## Sitemap XML scanners

The source uses regexes `<sitemap[^>]*>[\s\S]*?<\/sitemap>` and
`<url[^>]*>[\s\S]*?<\/url>` (case-insensitive, global, lazy) to cut the XML
into blocks, and `<loc>(.*?)<\/loc>` to pull the first location out of a
block.  `scanBlocks` reproduces that search: find the opening tag prefix
case-insensitively, skip to the first `>` (the `[^>]*>` part), capture lazily
up to the first closing tag, and continue scanning after it. -/

/-- Worker for `scanBlocks`, structurally recursive on a fuel bound so that it
evaluates inside the kernel; every scan continues strictly to the right, so
`l.length` fuel always suffices. -/
def scanBlocksGo (openPat closePat : List Char) : Nat → List Char → List (List Char)
  | 0, _ => []
  | fuel + 1, l =>
    match splitAtPatCI openPat l with
    | none => []
    | some (_, afterOpen) =>
      match splitAtPatCI ['>'] afterOpen with
      | none => []
      | some (_, afterGt) =>
        match splitAtPatCI closePat afterGt with
        | none => []
        | some (inner, rest) => inner :: scanBlocksGo openPat closePat fuel rest

/-- Cut `l` into the inner parts of `openPat…> … closePat` blocks, the way the
source's global lazy block regexes do. -/
def scanBlocks (openPat closePat : List Char) (l : List Char) : List (List Char) :=
  scanBlocksGo openPat closePat l.length l

/-- First `<loc>…</loc>` capture inside a block (`match.match(/<loc>(.*?)<\/loc>/i)`). -/
def extractFirstLoc (block : List Char) : Option (List Char) :=
  match splitAtPatCI "<loc>".data block with
  | none => none
  | some (_, afterOpen) =>
    match splitAtPatCI "</loc>".data afterOpen with
    | none => none
    | some (cap, _) => some cap

/-- Worker for `scanLocs`; fuelled like `scanBlocksGo`. -/
def scanLocsGo : Nat → List Char → List (List Char)
  | 0, _ => []
  | fuel + 1, l =>
    match splitAtPatCI "<loc>".data l with
    | none => []
    | some (_, after) =>
      match splitAtPatCI "</loc>".data after with
      | none => []
      | some (cap, rest) => cap :: scanLocsGo fuel rest

/-- All captures of the global `<loc>(.*?)<\/loc>` regex, in order. -/
def scanLocs (l : List Char) : List (List Char) :=
  scanLocsGo l.length l

/-- `isSitemapIndex` from the source: `xml.includes("<sitemapindex") ||
xml.includes("<sitemap>")`. -/
def isSitemapIndex (xml : String) : Bool :=
  subStr "<sitemapindex".data xml.data || subStr "<sitemap>".data xml.data

/-- `extractSitemapUrls` from the source: for every `<sitemap …>…</sitemap>`
block, push the first nonempty `<loc>` capture, trimmed. -/
def extractSitemapUrls (xml : String) : List String :=
  (scanBlocks "<sitemap".data "</sitemap>".data xml.data).foldl
    (fun acc block =>
      match extractFirstLoc block with
      | some cap => if cap ≠ [] then acc ++ [String.mk (trimChars cap)] else acc
      | none => acc) []

/-- JavaScript `Set.add` on an insertion-ordered list. -/
def addUniq (l : List String) (x : String) : List String :=
  if l.contains x then l else l ++ [x]

/-- `parseSitemapUrls` from the source: collect the first nonempty `<loc>` of
every `<url …>…</url>` block into a `Set`; when that finds nothing, fall back
to every `<loc>…</loc>` capture whose trimmed text neither ends in `.xml` nor
contains `sitemap`. -/
def parseSitemapUrls (xml : String) : List String :=
  let urls := (scanBlocks "<url".data "</url>".data xml.data).foldl
    (fun acc block =>
      match extractFirstLoc block with
      | some cap => if cap ≠ [] then addUniq acc (String.mk (trimChars cap)) else acc
      | none => acc) []
  if urls.isEmpty then
    (scanLocs xml.data).foldl
      (fun acc cap =>
        let loc := String.mk (trimChars cap)
        if !jsEndsWith loc ".xml" && !subStr "sitemap".data loc.data then addUniq acc loc
        else acc) []
  else urls

/-! ## Discovery events, actions, and the SSE emitter model -/

/-- Structured discovery events (the presentational `message` text and the
optional `currentUrl` of scanning statuses are not modelled). -/
inductive Event where
  | status (phase : String) (total fromSitemap pagesScanned : Nat)
  | done (links : List String) (total fromSitemap fromPages pagesScanned : Nat)
  | error
  deriving DecidableEq, Repr

/-- Externally visible side effects of a discovery run. -/
inductive Action where
  | launchBrowser
  | navigate (url : String)
  | fetchSitemap (url : String)
  deriving DecidableEq, Repr

/-- State of the SSE helper returned by `createSSEResponse`: the `isClosed`
flag, the events enqueued on the stream so far, and whether the underlying
controller has been closed. -/
structure SSEState where
  isClosed : Bool
  enqueued : List Event
  controllerClosed : Bool
  deriving DecidableEq, Repr

/-- `sendEvent` from `createSSEResponse`: a no-op once closed, otherwise the
event is enqueued on the stream. -/
def sendEvent (s : SSEState) (e : Event) : SSEState :=
  if s.isClosed then s else { s with enqueued := s.enqueued ++ [e] }

/-- `close` from `createSSEResponse`: closes the controller and sets the flag,
but only when not already closed. -/
def closeSSE (s : SSEState) : SSEState :=
  if s.isClosed then s else { s with controllerClosed := true, isClosed := true }

/-! ## The discovered-link sort

The source sorts with a comparator: path depth ascending, then
`localeCompare` of the pathnames; when `new URL` throws on either argument it
falls back to `localeCompare` of the whole strings.  `localeCompare` is
modelled as code-point lexicographic comparison, and JavaScript's stable
`Array.prototype.sort` as Mathlib's stable `insertionSort` over the
comparator's "does not come later" relation. -/

/-- Code-point lexicographic `≤` on character lists (model of a non-positive
`localeCompare` result). -/
def lexLE : List Char → List Char → Bool
  | [], _ => true
  | _ :: _, [] => false
  | a :: as, b :: bs =>
    if a.toNat < b.toNat then true
    else if b.toNat < a.toNat then false
    else lexLE as bs

/-- JavaScript `String.split('/')`. -/
def splitSlash : List Char → List (List Char)
  | [] => [[]]
  | c :: cs =>
    if c = '/' then [] :: splitSlash cs
    else match splitSlash cs with
      | [] => [[c]]
      | s :: ss => (c :: s) :: ss

/-- `path.split('/').filter(Boolean).length` from the sort comparator. -/
def pathDepth (p : List Char) : Nat :=
  ((splitSlash p).filter (fun s => s ≠ [])).length

/-- The sort comparator's induced order: `compare(a, b) ≤ 0`. -/
def linkLE (a b : String) : Bool :=
  match parseURL a, parseURL b with
  | some ra, some rb =>
    if pathDepth (pathnameOf ra) ≠ pathDepth (pathnameOf rb) then
      decide (pathDepth (pathnameOf ra) < pathDepth (pathnameOf rb))
    else lexLE (pathnameOf ra) (pathnameOf rb)
  | _, _ => lexLE a.data b.data

/-- The comparator as a decidable relation. -/
def linkRel (a b : String) : Prop := linkLE a b = true

instance : DecidableRel linkRel := fun a b =>
  inferInstanceAs (Decidable (linkLE a b = true))

/-- `[...discoveredLinks].sort(comparator)` from the source. -/
def sortLinks (l : List String) : List String :=
  List.insertionSort linkRel l

/-! ## The discovery run -/

/-- The network/browser environment of one run: `fetchXml` yields the body of
a sitemap fetch (`none` models a rejected request), `pageLinks` yields the
hrefs extracted from a navigated page (`none` models `page.goto` or the
extraction throwing). -/
structure World where
  fetchXml : String → Option String
  pageLinks : String → Option (List String)

/-- Ghost record of one actual page visit: the URL, the value of
`pagesVisited` for it, and `discoveredLinks.size - previousSize`. -/
structure Visit where
  url : String
  idx : Nat
  newLinks : Nat
  deriving DecidableEq, Repr

/-- Result of the browser-crawl loop, with ghost observations: `enq` is the
sequence of URLs pushed onto `pagesToVisit` by the loop, `visits` the
sequence of actual page visits. -/
structure CrawlOut where
  events : List Event
  actions : List Action
  discovered : List String
  pagesVisited : Nat
  newLinksFromPages : Nat
  enq : List String
  visits : List Visit
  deriving DecidableEq, Repr

def MAX_PAGES_SAFETY : Nat := 5000

/-- The inner `for (const link of links)` loop of the browser crawl: returns
the grown discovered set, the URLs pushed onto the frontier, and the number
of `newLinksFromPages` increments. -/
def processLinks (origin : String) (visited : List String) :
    List String → List String → List String × List String × Nat
  | discovered, [] => (discovered, [], 0)
  | discovered, link :: restL =>
    let c := cleanUrl link
    if jsStartsWith c origin && !isNonHtmlResource c && !discovered.contains c then
      let out := processLinks origin visited (discovered ++ [c]) restL
      (out.1, (if visited.contains c then [] else [c]) ++ out.2.1, out.2.2 + 1)
    else processLinks origin visited discovered restL

/-- The observation-free `if (visited.has(url)) continue;` iterations of the
crawl loop: drop already-visited URLs from the head of the frontier. -/
def skipVisited (visited : List String) : List String → List String
  | [] => []
  | url :: rest =>
    if visited.contains url then skipVisited visited rest else url :: rest

/-- The `while (pagesToVisit.length > 0 && pagesVisited < MAX_PAGES_SAFETY)`
loop of browser-crawl discovery.  `budget` is the number of page visits still
allowed, i.e. `MAX_PAGES_SAFETY - pagesVisited`; phrasing the cap check as
structural recursion on it keeps the loop kernel-computable. -/
def crawlLoop (w : World) (origin : String) :
    Nat → List String → List String → List String → Nat → Nat → CrawlOut
  | budget, frontier, visited, discovered, pagesVisited, newLinks =>
    match skipVisited visited frontier with
    | [] => ⟨[], [], discovered, pagesVisited, newLinks, [], []⟩
    | url :: rest =>
      match budget with
      | 0 => ⟨[], [], discovered, pagesVisited, newLinks, [], []⟩
      | budget' + 1 =>
        let visited' := url :: visited
        let pv := pagesVisited + 1
        let ev1 : List Event :=
          if pv % 5 = 1 ∨ pv = 1 then [.status "scanning" discovered.length 0 pv]
          else []
        match w.pageLinks url with
        | none =>
          let ev2 : List Event :=
            if rest.isEmpty then [.status "scanning" discovered.length 0 pv] else []
          let out := crawlLoop w origin budget' rest visited' discovered pv newLinks
          ⟨ev1 ++ ev2 ++ out.events, .navigate url :: out.actions, out.discovered,
            out.pagesVisited, out.newLinksFromPages, out.enq,
            ⟨url, pv, 0⟩ :: out.visits⟩
        | some links =>
          let res := processLinks origin visited' discovered links
          let newFound := res.1.length - discovered.length
          let ev2 : List Event :=
            if 0 < newFound then [.status "scanning" res.1.length 0 pv] else []
          let frontier2 := rest ++ res.2.1
          let ev3 : List Event :=
            if frontier2.isEmpty then [.status "scanning" res.1.length 0 pv] else []
          let out := crawlLoop w origin budget' frontier2 visited' res.1 pv (newLinks + res.2.2)
          ⟨ev1 ++ ev2 ++ ev3 ++ out.events, .navigate url :: out.actions, out.discovered,
            out.pagesVisited, out.newLinksFromPages, res.2.1 ++ out.enq,
            ⟨url, pv, newFound⟩ :: out.visits⟩

/-- Worker for `chunksOf5`; fuelled (by the list length) to stay structurally
recursive. -/
def chunksGo : Nat → List String → List (List String)
  | _, [] => []
  | 0, _ :: _ => []
  | fuel + 1, x :: xs => ((x :: xs).take 5) :: chunksGo fuel ((x :: xs).drop 5)

/-- `PARALLEL_LIMIT`-sized batching of the child sitemap URLs. -/
def chunksOf5 (l : List String) : List (List String) :=
  chunksGo l.length l

/-- Result of the child-sitemap batch loop. -/
structure SitemapOut where
  discovered : List String
  count : Nat
  events : List Event
  actions : List Action
  deriving DecidableEq, Repr

/-- The `url.startsWith(origin) && !isNonHtmlResource(url)` filter-and-add
loop over sitemap page URLs (conditions checked on the raw URL, the cleaned
URL added to the set, `sitemapLinksCount` incremented). -/
def addSitemapUrls (origin : String) : List String → List String → Nat → List String × Nat
  | [], disc, cnt => (disc, cnt)
  | u :: us, disc, cnt =>
    if jsStartsWith u origin && !isNonHtmlResource u then
      addSitemapUrls origin us (addUniq disc (cleanUrl u)) (cnt + 1)
    else addSitemapUrls origin us disc cnt

/-- The batched child-sitemap fetch loop of sitemap-index discovery: each
batch is fetched (failures yield `[]`), parsed, filtered and added, followed
by one progress status event. -/
def sitemapBatches (w : World) (origin : String) :
    List (List String) → List String → Nat → SitemapOut
  | [], disc, cnt => ⟨disc, cnt, [], []⟩
  | batch :: more, disc, cnt =>
    let childResults := batch.map (fun u =>
      match w.fetchXml u with
      | none => []
      | some xml => parseSitemapUrls xml)
    let step := addSitemapUrls origin childResults.flatten disc cnt
    let out := sitemapBatches w origin more step.1 step.2
    ⟨out.discovered, out.count,
      .status "sitemap" step.1.length step.2 0 :: out.events,
      batch.map .fetchSitemap ++ out.actions⟩

/-- Everything observable about one discovery run: the SSE events in order,
the side-effect actions, and the ghost frontier/visit logs of the
browser-crawl loop. -/
structure DiscoverResult where
  events : List Event
  actions : List Action
  enqueueLog : List String
  visitLog : List Visit
  deriving DecidableEq, Repr

/-- Sitemap-mode discovery (`MODE 1` in the source): fetch the sitemap (a
rejected fetch produces the error event), split on `isSitemapIndex`, filter
and add the page URLs, then emit the `sitemap_done` status and the `done`
event with the sorted links. -/
def discoverSitemap (w : World) (origin : String) (discovered0 : List String)
    (su : String) : DiscoverResult :=
  match w.fetchXml su with
  | none =>
    ⟨[.status "starting" 0 0 0, .status "sitemap" discovered0.length 0 0, .error],
      [.fetchSitemap su], [], []⟩
  | some xml =>
    if isSitemapIndex xml then
      let out := sitemapBatches w origin (chunksOf5 (extractSitemapUrls xml)) discovered0 0
      let sorted := sortLinks out.discovered
      ⟨[.status "starting" 0 0 0, .status "sitemap" discovered0.length 0 0,
         .status "sitemap" discovered0.length 0 0] ++ out.events ++
        [.status "sitemap_done" out.discovered.length out.count 0,
         .done sorted sorted.length out.count 0 0],
        .fetchSitemap su :: out.actions, [], []⟩
    else
      let step := addSitemapUrls origin (parseSitemapUrls xml) discovered0 0
      let sorted := sortLinks step.1
      ⟨[.status "starting" 0 0 0, .status "sitemap" discovered0.length 0 0,
         .status "sitemap" discovered0.length 0 0,
         .status "sitemap_done" step.1.length step.2 0,
         .done sorted sorted.length step.2 0 0],
        [.fetchSitemap su], [], []⟩

/-- Browser-crawl discovery (`MODE 2` in the source): launch the browser, run
the crawl loop from the raw start URL, then emit the `done` event with the
sorted links. -/
def discoverBrowser (w : World) (startUrl origin : String)
    (discovered0 : List String) : DiscoverResult :=
  let out := crawlLoop w origin MAX_PAGES_SAFETY [startUrl] [] discovered0 0 0
  let sorted := sortLinks out.discovered
  ⟨[.status "starting" 0 0 0, .status "browser" discovered0.length 0 0] ++ out.events ++
    [.done sorted sorted.length 0 out.newLinksFromPages out.pagesVisited],
    .launchBrowser :: out.actions, startUrl :: out.enq, out.visits⟩

/-- The discovery `GET` handler body (after the `startUrl` presence check):
parse the start URL (failure emits only an error event), seed the discovered
set with `cleanUrl(startUrl)`, then run sitemap-mode discovery when a sitemap
URL is given, browser-crawl discovery otherwise. -/
def discover (w : World) (startUrl : String) (sitemapUrl : Option String) :
    DiscoverResult :=
  match parseURL startUrl with
  | none => ⟨[.error], [], [], []⟩
  | some r =>
    match sitemapUrl with
    | some su => discoverSitemap w (originOf r) [cleanUrl startUrl] su
    | none => discoverBrowser w startUrl (originOf r) [cleanUrl startUrl]

/-! ## Concrete worlds used by witnesses and counterexamples -/

/-- World for claim C4: a sitemap index with two child sitemaps of three
same-origin page URLs each. -/
def w4 : World :=
  { fetchXml := fun u =>
      if u == "http://ex.com/sitemap.xml" then
        some "<sitemapindex><sitemap><loc>http://ex.com/sm1.xml</loc></sitemap><sitemap><loc>http://ex.com/sm2.xml</loc></sitemap></sitemapindex>"
      else if u == "http://ex.com/sm1.xml" then
        some "<urlset><url><loc>http://ex.com/a</loc></url><url><loc>http://ex.com/b</loc></url><url><loc>http://ex.com/c</loc></url></urlset>"
      else if u == "http://ex.com/sm2.xml" then
        some "<urlset><url><loc>http://ex.com/d</loc></url><url><loc>http://ex.com/e</loc></url><url><loc>http://ex.com/f</loc></url></urlset>"
      else none
    pageLinks := fun _ => none }

/-- World for claim C5's counterexample: the start page links to two pages
that themselves link to nothing new, so the second page visit emits no
status event at all. -/
def w5 : World :=
  { fetchXml := fun _ => none
    pageLinks := fun u =>
      if u == "http://s/" then some ["http://s/a", "http://s/b"]
      else if u == "http://s/a" then some []
      else if u == "http://s/b" then some []
      else none }

/-- World for claim C7: the start page links to pages with paths `/a/b`, `/a`
and `/c/d/e` (the start page itself has path `/`). -/
def w7 : World :=
  { fetchXml := fun _ => none
    pageLinks := fun u =>
      if u == "http://s/" then some ["http://s/a/b", "http://s/a", "http://s/c/d/e"]
      else some [] }

/-! ## Claim C3 -/

/-- Claim C3: `cleanUrl` is fragment-independent — any two URL strings that
parse and differ only in their fragment component clean to the same
canonical string — and `cleanUrl` is idempotent on every string. -/
theorem claim_C3 :
    (∀ (u1 u2 : String) (r1 r2 : URLRec), parseURL u1 = some r1 →
      parseURL u2 = some r2 → r1.scheme = r2.scheme → r1.rest = r2.rest →
      cleanUrl u1 = cleanUrl u2) ∧
    (∀ u : String, cleanUrl (cleanUrl u) = cleanUrl u) :=
  ⟨fun _ _ _ _ h1 h2 hs hr => cleanUrl_fragment_indep h1 h2 hs hr, cleanUrl_idem⟩

/-- Witness for claim C3 at the concrete URLs `http://a/p#x` and
`http://a/p#y`. -/
theorem claim_C3_witness :
    cleanUrl "http://a/p#x" = cleanUrl "http://a/p#y" ∧
    cleanUrl (cleanUrl "http://a/p#x") = cleanUrl "http://a/p#x" :=
  ⟨claim_C3.1 "http://a/p#x" "http://a/p#y"
      ⟨"http".data, "a/p".data, some "x".data⟩
      ⟨"http".data, "a/p".data, some "y".data⟩
      (by decide) (by decide) rfl rfl,
   claim_C3.2 "http://a/p#x"⟩

/-! ## Claim C8 -/

theorem closeSSE_isClosed (s : SSEState) : (closeSSE s).isClosed = true := by
  unfold closeSSE
  split <;> simp_all

theorem sendEvent_of_closed {s : SSEState} (h : s.isClosed = true) (e : Event) :
    sendEvent s e = s := by
  simp [sendEvent, h]

/-- Claim C8: after `close()`, `send(event)` is a no-op (a single send, and
any sequence of sends, leaves the emitter state — including the stream's
enqueued output — unchanged), and `close()` is idempotent. -/
theorem claim_C8 :
    (∀ (s : SSEState) (e : Event), sendEvent (closeSSE s) e = closeSSE s) ∧
    (∀ (s : SSEState) (es : List Event), es.foldl sendEvent (closeSSE s) = closeSSE s) ∧
    (∀ s : SSEState, closeSSE (closeSSE s) = closeSSE s) := by
  have hsend : ∀ (s : SSEState) (e : Event), sendEvent (closeSSE s) e = closeSSE s :=
    fun s e => sendEvent_of_closed (closeSSE_isClosed s) e
  refine ⟨hsend, ?_, ?_⟩
  · intro s es
    induction es with
    | nil => rfl
    | cons e es ih => rw [List.foldl_cons, hsend, ih]
  · intro s
    unfold closeSSE
    split
    · rfl
    · simp

/-! ## Claim C4 -/

/-- Claim C4: on a sitemap index pointing to 2 child sitemaps with 3 unique
same-origin non-resource page URLs each, the `done` event reports
`fromSitemap = 6` and `total = 7` — the 6 sitemap links plus the
canonicalized start URL — with the links list carrying exactly those 7
URLs. -/
theorem claim_C4 :
    Event.done ["http://ex.com/", "http://ex.com/a", "http://ex.com/b",
      "http://ex.com/c", "http://ex.com/d", "http://ex.com/e", "http://ex.com/f"]
      7 6 0 0 ∈
      (discover w4 "http://ex.com/" (some "http://ex.com/sitemap.xml")).events := by
  decide

/-! ## Claim C6 -/

theorem subStr_iff {pat l : List Char} :
    subStr pat l = true ↔ ∃ b a, l = b ++ pat ++ a := by
  induction l with
  | nil =>
    rw [subStr]
    rw [List.isPrefixOf_iff_prefix, List.prefix_nil]
    constructor
    · rintro rfl; exact ⟨[], [], rfl⟩
    · rintro ⟨b, a, hba⟩
      have := hba.symm
      simp only [List.append_eq_nil] at this
      exact this.1.2
  | cons c cs ih =>
    rw [subStr]
    simp only [Bool.or_eq_true, List.isPrefixOf_iff_prefix, ih]
    constructor
    · rintro (⟨t, ht⟩ | ⟨b, a, rfl⟩)
      · exact ⟨[], t, by simpa using ht.symm⟩
      · exact ⟨c :: b, a, by simp⟩
    · rintro ⟨b, a, hba⟩
      cases b with
      | nil => exact Or.inl ⟨a, by simpa using hba.symm⟩
      | cons d bs =>
        simp only [List.cons_append, List.cons.injEq] at hba
        exact Or.inr ⟨bs, a, hba.2⟩

/-- Scanner for an occurrence of `<` immediately followed by `s`; both index
wrapper tags start that way, while flat-sitemap markup never contains it. -/
def hasLtS : List Char → Bool
  | [] => false
  | c :: cs => (c == '<' && cs.head? == some 's') || hasLtS cs

theorem hasLtS_of_decomp {l b a : List Char} (h : l = b ++ '<' :: 's' :: a) :
    hasLtS l = true := by
  subst h
  induction b with
  | nil => simp [hasLtS]
  | cons c cs ih => simp [hasLtS, ih]

theorem hasLtS_append_false {x y : List Char} (hx : hasLtS x = false)
    (hy : hasLtS y = false)
    (hside : ¬(x.getLast? = some '<' ∧ y.head? = some 's')) :
    hasLtS (x ++ y) = false := by
  induction x with
  | nil => simpa using hy
  | cons c cs ih =>
    simp only [List.cons_append, hasLtS] at hx ⊢
    simp only [Bool.or_eq_false_iff] at hx ⊢
    cases cs with
    | nil =>
      refine ⟨?_, by simpa using hy⟩
      simp only [List.getLast?_singleton] at hside
      by_cases hc : c = '<'
      · subst hc
        cases hhd : y.head? with
        | none => simp [hhd]
        | some d =>
          have : d ≠ 's' := fun hd => hside ⟨rfl, by rw [hhd, hd]⟩
          simp [hhd, this]
      · simp [hc]
    | cons d ds =>
      refine ⟨by simpa using hx.1, ?_⟩
      apply ih hx.2
      intro ⟨h1, h2⟩
      exact hside ⟨by rw [List.getLast?_cons_cons]; exact h1, h2⟩

theorem hasLtS_of_not_mem {l : List Char} (h : '<' ∉ l) : hasLtS l = false := by
  induction l with
  | nil => rfl
  | cons c cs ih =>
    rw [hasLtS]
    have hc : c ≠ '<' := fun hc => h (hc ▸ List.mem_cons_self c cs)
    simp [hc, ih (fun hm => h (List.mem_cons_of_mem c hm))]

/-- Spec-side notion of "contains a sitemap index wrapper element": the XML
contains the `<sitemapindex` root open tag or a `<sitemap>` child wrapper
tag. -/
def hasIndexWrapper (xml : String) : Prop :=
  (∃ b a, xml.data = b ++ "<sitemapindex".data ++ a) ∨
  (∃ b a, xml.data = b ++ "<sitemap>".data ++ a)

/-- Spec-side renderer of a flat sitemap document (sitemap protocol): a
`<urlset>` of `<url><loc>…</loc></url>` entries. -/
def renderUrlset (urls : List String) : String :=
  String.mk ("<urlset>".data ++
    (urls.map (fun u => "<url><loc>".data ++ u.data ++ "</loc></url>".data)).flatten ++
    "</urlset>".data)

theorem hasLtS_renderUrlset {urls : List String}
    (h : ∀ u ∈ urls, '<' ∉ u.data) : hasLtS (renderUrlset urls).data = false := by
  have hbody : hasLtS
      ((urls.map (fun u => "<url><loc>".data ++ u.data ++ "</loc></url>".data)).flatten ++
        "</urlset>".data) = false := by
    induction urls with
    | nil => decide
    | cons u us ih =>
      have hu : '<' ∉ u.data := h u (by simp)
      have ihus := ih (fun v hv => h v (List.mem_cons_of_mem u hv))
      simp only [List.map_cons, List.flatten_cons, List.append_assoc]
      apply hasLtS_append_false (by decide)
      · apply hasLtS_append_false (hasLtS_of_not_mem hu)
        · apply hasLtS_append_false (by decide)
          · simpa [List.append_assoc] using ihus
          · intro ⟨_, hh⟩
            rcases us with _ | ⟨v, vs⟩ <;> simp at hh
        · intro ⟨_, hh⟩
          simp at hh
      · intro ⟨hl, _⟩
        simp at hl
  show hasLtS ("<urlset>".data ++
    ((urls.map (fun u => "<url><loc>".data ++ u.data ++ "</loc></url>".data)).flatten ++
      "</urlset>".data)) = false
  apply hasLtS_append_false (by decide) hbody
  intro ⟨hl, _⟩
  simp at hl

/-- Claim C6: `isSitemapIndex(xml)` is `true` exactly when the XML contains a
sitemap index wrapper element (the `<sitemapindex` root tag or a `<sitemap>`
child wrapper), and it is `false` on every flat sitemap document — a
`<urlset>` of `<url><loc>…</loc></url>` entries whose location texts contain
no `<`. -/
theorem claim_C6 :
    (∀ xml : String, isSitemapIndex xml = true ↔ hasIndexWrapper xml) ∧
    (∀ urls : List String, (∀ u ∈ urls, '<' ∉ u.data) →
      isSitemapIndex (renderUrlset urls) = false) := by
  constructor
  · intro xml
    unfold isSitemapIndex hasIndexWrapper
    rw [Bool.or_eq_true, subStr_iff, subStr_iff]
  · intro urls h
    have hscan := hasLtS_renderUrlset h
    unfold isSitemapIndex
    rw [Bool.or_eq_false_iff]
    constructor
    · cases hsub : subStr "<sitemapindex".data (renderUrlset urls).data with
      | false => rfl
      | true =>
        exfalso
        obtain ⟨b, a, hba⟩ := subStr_iff.mp hsub
        have : (renderUrlset urls).data = b ++ '<' :: 's' :: ("itemapindex".data ++ a) := by
          rw [hba]; simp
        rw [hasLtS_of_decomp this] at hscan
        exact Bool.true_eq_false.mp hscan
    · cases hsub : subStr "<sitemap>".data (renderUrlset urls).data with
      | false => rfl
      | true =>
        exfalso
        obtain ⟨b, a, hba⟩ := subStr_iff.mp hsub
        have : (renderUrlset urls).data = b ++ '<' :: 's' :: ("itemap>".data ++ a) := by
          rw [hba]; simp
        rw [hasLtS_of_decomp this] at hscan
        exact Bool.true_eq_false.mp hscan

/-- Witness for claim C6: a concrete sitemap index is detected, and a
concrete flat sitemap is not. -/
theorem claim_C6_witness :
    isSitemapIndex "<sitemapindex><sitemap><loc>x</loc></sitemap></sitemapindex>" = true ∧
    isSitemapIndex (renderUrlset ["http://a/x", "http://a/y"]) = false :=
  ⟨(claim_C6.1 "<sitemapindex><sitemap><loc>x</loc></sitemap></sitemapindex>").mpr
      (Or.inl ⟨[], "><sitemap><loc>x</loc></sitemap></sitemapindex>".data, by decide⟩),
   claim_C6.2 ["http://a/x", "http://a/y"] (by decide)⟩

/-! ## Claim C2 -/

theorem sitemapBatches_actions (w : World) (origin : String) :
    ∀ (batches : List (List String)) (disc : List String) (cnt : Nat),
      ∀ a ∈ (sitemapBatches w origin batches disc cnt).actions,
        ∃ u, a = Action.fetchSitemap u := by
  intro batches
  induction batches with
  | nil =>
    intro disc cnt a ha
    simp [sitemapBatches] at ha
  | cons batch more ih =>
    intro disc cnt a ha
    simp only [sitemapBatches, List.mem_append, List.mem_map] at ha
    rcases ha with ⟨u, _, rfl⟩ | ha
    · exact ⟨u, rfl⟩
    · exact ih _ _ a ha

theorem discoverSitemap_actions (w : World) (origin : String)
    (discovered0 : List String) (su : String) :
    ∀ a ∈ (discoverSitemap w origin discovered0 su).actions,
      ∃ u, a = Action.fetchSitemap u := by
  intro a ha
  unfold discoverSitemap at ha
  cases hf : w.fetchXml su with
  | none =>
    rw [hf] at ha
    simp at ha
    exact ⟨su, ha⟩
  | some xml =>
    rw [hf] at ha
    by_cases hidx : isSitemapIndex xml = true
    · simp only [hidx, if_true, List.mem_cons] at ha
      rcases ha with rfl | ha
      · exact ⟨su, rfl⟩
      · exact sitemapBatches_actions w origin _ _ _ a ha
    · simp [hidx] at ha
      exact ⟨su, ha⟩

/-- Claim C2: in sitemap mode the discovery run launches no browser and
issues no page navigation — every externally visible action of the run is a
sitemap fetch. -/
theorem claim_C2 (w : World) (startUrl su : String) :
    ∀ a ∈ (discover w startUrl (some su)).actions, ∃ u, a = Action.fetchSitemap u := by
  intro a ha
  unfold discover at ha
  cases hp : parseURL startUrl with
  | none =>
    rw [hp] at ha
    simp at ha
  | some r =>
    rw [hp] at ha
    exact discoverSitemap_actions w (originOf r) [cleanUrl startUrl] su a ha

/-- Witness for claim C2 on the concrete sitemap-index world: no browser
launch and no navigation appears among the actions. -/
theorem claim_C2_witness :
    ∃ u, Action.fetchSitemap "http://ex.com/sm1.xml" = Action.fetchSitemap u :=
  claim_C2 w4 "http://ex.com/" "http://ex.com/sitemap.xml"
    (Action.fetchSitemap "http://ex.com/sm1.xml") (by decide)

/-! ## Shape of the discovered set and of `done` events -/

theorem mem_ite_nil {α} {c : Prop} [Decidable c] {x e : α}
    (h : e ∈ if c then [x] else []) : e = x := by
  split at h <;> simp_all

theorem mem_addUniq {l : List String} {x y : String} :
    y ∈ addUniq l x ↔ y ∈ l ∨ y = x := by
  unfold addUniq
  split
  · next hc =>
    have hx : x ∈ l := List.elem_iff.mp hc
    constructor
    · exact Or.inl
    · rintro (h | rfl)
      · exact h
      · exact hx
  · simp

/-- A canonical-parseable URL string: it parses, it is a fixed point of
`cleanUrl`, and it carries no `#`. -/
def GoodUrl (x : String) : Prop :=
  (∃ rx, parseURL x = some rx) ∧ cleanUrl x = x ∧ '#' ∉ x.data

theorem goodUrl_cleanUrl {u : String} {r : URLRec} (h : parseURL u = some r) :
    GoodUrl (cleanUrl u) :=
  ⟨⟨_, parse_cleanUrl h⟩, cleanUrl_idem u, cleanUrl_hashFree h⟩

/-- Origin-prefix soundness: any string that `startsWith` the origin of a
parsed URL itself parses. -/
theorem parse_of_origin_pre {s : String} {r : URLRec} (h : parseURL s = some r)
    {x : String} (hx : jsStartsWith x (originOf r) = true) :
    ∃ rx, parseURL x = some rx := by
  obtain ⟨hv, _, _⟩ := parseChars_sound (l := s.data) h
  obtain ⟨t, ht⟩ := List.isPrefixOf_iff_prefix.mp hx
  refine ⟨⟨r.scheme, (splitFrag (hostOf r ++ t)).1, (splitFrag (hostOf r ++ t)).2⟩, ?_⟩
  show parseChars x.data = _
  have hxdata : x.data = r.scheme ++ ':' :: '/' :: '/' :: (hostOf r ++ t) := by
    rw [← ht]
    show (originOf r).data ++ t = _
    simp [originOf]
  rw [hxdata]
  unfold parseChars
  rw [splitScheme_append _ (fun c hc => (validScheme_not_colon_hash hv c hc).1)]
  simp [Option.bind, hv]

/-- The cleaned form of a URL that passed the crawl filter is a `GoodUrl`. -/
theorem goodUrl_of_filter {origin link : String}
    (horig : ∀ x : String, jsStartsWith x origin = true → ∃ rx, parseURL x = some rx)
    (hpre : jsStartsWith (cleanUrl link) origin = true) : GoodUrl (cleanUrl link) := by
  cases hpl : parseURL link with
  | some rl => exact goodUrl_cleanUrl hpl
  | none =>
    exfalso
    have hclean : cleanUrl link = link := by unfold cleanUrl; rw [hpl]
    obtain ⟨rx, hrx⟩ := horig (cleanUrl link) hpre
    rw [hclean, hpl] at hrx
    exact Option.noConfusion hrx

theorem addSitemapUrls_mono (origin : String) :
    ∀ (urls disc : List String) (cnt : Nat) (x : String), x ∈ disc →
      x ∈ (addSitemapUrls origin urls disc cnt).1 := by
  intro urls
  induction urls with
  | nil => intro disc cnt x hx; exact hx
  | cons u us ih =>
    intro disc cnt x hx
    unfold addSitemapUrls
    split
    · exact ih _ _ x (mem_addUniq.mpr (Or.inl hx))
    · exact ih _ _ x hx

theorem addSitemapUrls_good (origin : String)
    (horig : ∀ x : String, jsStartsWith x origin = true → ∃ rx, parseURL x = some rx) :
    ∀ (urls disc : List String) (cnt : Nat) (x : String),
      x ∈ (addSitemapUrls origin urls disc cnt).1 → x ∈ disc ∨ GoodUrl x := by
  intro urls
  induction urls with
  | nil => intro disc cnt x hx; exact Or.inl hx
  | cons u us ih =>
    intro disc cnt x hx
    unfold addSitemapUrls at hx
    split at hx
    · next hg =>
      rcases ih _ _ x hx with hmem | hgood
      · rcases mem_addUniq.mp hmem with hmem | rfl
        · exact Or.inl hmem
        · right
          have hpre : jsStartsWith u origin = true := by
            simp only [Bool.and_eq_true] at hg
            exact hg.1
          obtain ⟨ru, hru⟩ := horig u hpre
          exact goodUrl_cleanUrl hru
      · exact Or.inr hgood
    · exact ih _ _ x hx

theorem sitemapBatches_mono (w : World) (origin : String) :
    ∀ (batches : List (List String)) (disc : List String) (cnt : Nat) (x : String),
      x ∈ disc → x ∈ (sitemapBatches w origin batches disc cnt).discovered := by
  intro batches
  induction batches with
  | nil => intro disc cnt x hx; exact hx
  | cons batch more ih =>
    intro disc cnt x hx
    exact ih _ _ x (addSitemapUrls_mono origin _ _ _ x hx)

theorem sitemapBatches_good (w : World) (origin : String)
    (horig : ∀ x : String, jsStartsWith x origin = true → ∃ rx, parseURL x = some rx) :
    ∀ (batches : List (List String)) (disc : List String) (cnt : Nat) (x : String),
      x ∈ (sitemapBatches w origin batches disc cnt).discovered →
        x ∈ disc ∨ GoodUrl x := by
  intro batches
  induction batches with
  | nil => intro disc cnt x hx; exact Or.inl hx
  | cons batch more ih =>
    intro disc cnt x hx
    rcases ih _ _ x hx with hmem | hgood
    · exact addSitemapUrls_good origin horig _ _ _ x hmem
    · exact Or.inr hgood

theorem processLinks_spec (origin : String) (visited : List String)
    (horig : ∀ x : String, jsStartsWith x origin = true → ∃ rx, parseURL x = some rx) :
    ∀ (links disc : List String),
      ∃ ext, (processLinks origin visited disc links).1 = disc ++ ext ∧
        (∀ x ∈ ext, GoodUrl x) ∧
        (∀ x ∈ (processLinks origin visited disc links).2.1,
          x ∉ disc ∧ x ∈ (processLinks origin visited disc links).1 ∧
            x ∉ visited ∧ GoodUrl x) ∧
        (processLinks origin visited disc links).2.1.Nodup := by
  intro links
  induction links with
  | nil =>
    intro disc
    refine ⟨[], by simp [processLinks], by simp, by simp [processLinks],
      by simp [processLinks]⟩
  | cons link restL ih =>
    intro disc
    by_cases hg : (jsStartsWith (cleanUrl link) origin &&
        !isNonHtmlResource (cleanUrl link) && !disc.contains (cleanUrl link)) = true
    · have heq : processLinks origin visited disc (link :: restL) =
          ((processLinks origin visited (disc ++ [cleanUrl link]) restL).1,
            (if visited.contains (cleanUrl link) then [] else [cleanUrl link]) ++
              (processLinks origin visited (disc ++ [cleanUrl link]) restL).2.1,
            (processLinks origin visited (disc ++ [cleanUrl link]) restL).2.2 + 1) := by
        rw [processLinks]
        rw [if_pos hg]
      have heq1 : (processLinks origin visited disc (link :: restL)).1 =
          (processLinks origin visited (disc ++ [cleanUrl link]) restL).1 := by
        rw [heq]
      have heq2 : (processLinks origin visited disc (link :: restL)).2.1 =
          (if visited.contains (cleanUrl link) then [] else [cleanUrl link]) ++
            (processLinks origin visited (disc ++ [cleanUrl link]) restL).2.1 := by
        rw [heq]
      have hg' : (jsStartsWith (cleanUrl link) origin = true ∧
          isNonHtmlResource (cleanUrl link) = false) ∧ cleanUrl link ∉ disc := by
        simpa [Bool.and_eq_true] using hg
      have hpre1 : jsStartsWith (cleanUrl link) origin = true := hg'.1.1
      have hnotdisc : cleanUrl link ∉ disc := hg'.2
      have hgood : GoodUrl (cleanUrl link) := goodUrl_of_filter horig hpre1
      obtain ⟨ext', h1', h2', h3', h4'⟩ := ih (disc ++ [cleanUrl link])
      have hcmem : cleanUrl link ∈ (processLinks origin visited disc (link :: restL)).1 := by
        rw [heq1, h1']
        simp
      refine ⟨cleanUrl link :: ext', ?_, ?_, ?_, ?_⟩
      · rw [heq1, h1']
        simp
      · intro x hx
        rcases List.mem_cons.mp hx with rfl | hx
        · exact hgood
        · exact h2' x hx
      · intro x hx
        rw [heq2] at hx
        simp only [List.mem_append] at hx
        rcases hx with hx | hx
        · have hx' : visited.contains (cleanUrl link) = false ∧ x = cleanUrl link := by
            revert hx
            split
            · intro hx
              exact absurd hx (List.not_mem_nil x)
            · next hvc =>
              intro hx
              exact ⟨by simpa using hvc, List.mem_singleton.mp hx⟩
          obtain ⟨hvc, hxeq⟩ := hx'
          subst hxeq
          refine ⟨hnotdisc, hcmem, ?_, hgood⟩
          intro hmem
          have hc2 : visited.contains (cleanUrl link) = true := List.elem_iff.mpr hmem
          rw [hvc] at hc2
          exact Bool.false_ne_true hc2
        · obtain ⟨hnd, hmem, hnv, hgx⟩ := h3' x hx
          refine ⟨fun hc => hnd (by simp [hc]), ?_, hnv, hgx⟩
          rw [heq1]
          exact hmem
      · rw [heq2]
        have hdisj : ∀ x ∈ (processLinks origin visited (disc ++ [cleanUrl link]) restL).2.1,
            x ≠ cleanUrl link := by
          intro x hx hxc
          exact (h3' x hx).1 (by simp [hxc])
        split
        · simpa using h4'
        · simp only [List.singleton_append, List.nodup_cons]
          exact ⟨fun hc => hdisj _ hc rfl, h4'⟩
    · have heq : processLinks origin visited disc (link :: restL) =
          processLinks origin visited disc restL := by
        rw [processLinks]
        rw [if_neg hg]
      rw [heq]
      exact ih disc

theorem skipVisited_head {visited frontier : List String} {url : String}
    {rest : List String} (h : skipVisited visited frontier = url :: rest) :
    url ∉ visited := by
  induction frontier with
  | nil => exact absurd h (by simp [skipVisited])
  | cons f fs ih =>
    rw [skipVisited] at h
    split at h
    · exact ih h
    · next hc =>
      cases h
      intro hmem
      exact hc (List.elem_iff.mpr hmem)

theorem crawlLoop_events_status (w : World) (origin : String) :
    ∀ (budget : Nat) (frontier visited discovered : List String) (pv nl : Nat),
      ∀ e ∈ (crawlLoop w origin budget frontier visited discovered pv nl).events,
        ∃ t ps, e = Event.status "scanning" t 0 ps := by
  intro budget
  induction budget with
  | zero =>
    intro frontier visited discovered pv nl e he
    rcases hsk : skipVisited visited frontier with _ | ⟨url, rest⟩ <;>
      simp [crawlLoop, hsk] at he
  | succ b ih =>
    intro frontier visited discovered pv nl e he
    rcases hsk : skipVisited visited frontier with _ | ⟨url, rest⟩
    · simp [crawlLoop, hsk] at he
    · rw [crawlLoop, hsk] at he
      dsimp only at he
      cases hpl : w.pageLinks url with
      | none =>
        rw [hpl] at he
        dsimp only at he
        simp only [List.mem_append] at he
        rcases he with (he | he) | he
        · exact ⟨_, _, mem_ite_nil he⟩
        · exact ⟨_, _, mem_ite_nil he⟩
        · exact ih _ _ _ _ _ e he
      | some links =>
        rw [hpl] at he
        dsimp only at he
        simp only [List.mem_append] at he
        rcases he with ((he | he) | he) | he
        · exact ⟨_, _, mem_ite_nil he⟩
        · exact ⟨_, _, mem_ite_nil he⟩
        · exact ⟨_, _, mem_ite_nil he⟩
        · exact ih _ _ _ _ _ e he

theorem crawlLoop_disc (w : World) (origin : String)
    (horig : ∀ x : String, jsStartsWith x origin = true → ∃ rx, parseURL x = some rx) :
    ∀ (budget : Nat) (frontier visited discovered : List String) (pv nl : Nat),
      (∀ x ∈ discovered,
        x ∈ (crawlLoop w origin budget frontier visited discovered pv nl).discovered) ∧
      (∀ x ∈ (crawlLoop w origin budget frontier visited discovered pv nl).discovered,
        x ∈ discovered ∨ GoodUrl x) := by
  intro budget
  induction budget with
  | zero =>
    intro frontier visited discovered pv nl
    rcases hsk : skipVisited visited frontier with _ | ⟨url, rest⟩ <;>
      constructor <;> simp [crawlLoop, hsk] <;> intro x hx <;> first
        | exact hx
        | exact Or.inl hx
  | succ b ih =>
    intro frontier visited discovered pv nl
    rcases hsk : skipVisited visited frontier with _ | ⟨url, rest⟩
    · constructor <;> simp only [crawlLoop, hsk] <;> intro x hx
      · exact hx
      · exact Or.inl hx
    · have hunfold := congrArg CrawlOut.discovered
        (show crawlLoop w origin (b + 1) frontier visited discovered pv nl = _ from by
          rw [crawlLoop, hsk])
      dsimp only at hunfold
      cases hpl : w.pageLinks url with
      | none =>
        rw [hpl] at hunfold
        dsimp only at hunfold
        rw [hunfold]
        exact ih rest (url :: visited) discovered (pv + 1) nl
      | some links =>
        rw [hpl] at hunfold
        dsimp only at hunfold
        rw [hunfold]
        obtain ⟨ext, hext, hgext, -, -⟩ :=
          processLinks_spec origin (url :: visited) horig links discovered
        have ihs := ih (rest ++ (processLinks origin (url :: visited) discovered links).2.1)
          (url :: visited) (processLinks origin (url :: visited) discovered links).1
          (pv + 1) (nl + (processLinks origin (url :: visited) discovered links).2.2)
        constructor
        · intro x hx
          exact ihs.1 x (by rw [hext]; exact List.mem_append_left _ hx)
        · intro x hx
          rcases ihs.2 x hx with hmem | hgx
          · rw [hext] at hmem
            rcases List.mem_append.mp hmem with hmem | hmem
            · exact Or.inl hmem
            · exact Or.inr (hgext x hmem)
          · exact Or.inr hgx

theorem crawlLoop_enq (w : World) (origin : String)
    (horig : ∀ x : String, jsStartsWith x origin = true → ∃ rx, parseURL x = some rx) :
    ∀ (budget : Nat) (frontier visited discovered : List String) (pv nl : Nat),
      (crawlLoop w origin budget frontier visited discovered pv nl).enq.Nodup ∧
      (∀ x ∈ (crawlLoop w origin budget frontier visited discovered pv nl).enq,
        x ∉ discovered ∧
        x ∈ (crawlLoop w origin budget frontier visited discovered pv nl).discovered ∧
        GoodUrl x) := by
  intro budget
  induction budget with
  | zero =>
    intro frontier visited discovered pv nl
    rcases hsk : skipVisited visited frontier with _ | ⟨url, rest⟩ <;>
      constructor <;> simp [crawlLoop, hsk]
  | succ b ih =>
    intro frontier visited discovered pv nl
    rcases hsk : skipVisited visited frontier with _ | ⟨url, rest⟩
    · constructor <;> simp [crawlLoop, hsk]
    · have heq := (show crawlLoop w origin (b + 1) frontier visited discovered pv nl = _
        from by rw [crawlLoop, hsk])
      dsimp only at heq
      cases hpl : w.pageLinks url with
      | none =>
        rw [hpl] at heq
        dsimp only at heq
        rw [heq]
        dsimp only
        exact ih rest (url :: visited) discovered (pv + 1) nl
      | some links =>
        rw [hpl] at heq
        dsimp only at heq
        rw [heq]
        dsimp only
        obtain ⟨ext, hext, hgext, hq, hqnd⟩ :=
          processLinks_spec origin (url :: visited) horig links discovered
        obtain ⟨ihnd, ihmem⟩ := ih
          (rest ++ (processLinks origin (url :: visited) discovered links).2.1)
          (url :: visited) (processLinks origin (url :: visited) discovered links).1
          (pv + 1) (nl + (processLinks origin (url :: visited) discovered links).2.2)
        have discmono := (crawlLoop_disc w origin horig b
          (rest ++ (processLinks origin (url :: visited) discovered links).2.1)
          (url :: visited) (processLinks origin (url :: visited) discovered links).1
          (pv + 1) (nl + (processLinks origin (url :: visited) discovered links).2.2)).1
        constructor
        · refine List.Nodup.append hqnd ihnd ?_
          intro x hxq hxe
          exact (ihmem x hxe).1 (hq x hxq).2.1
        · intro x hx
          rcases List.mem_append.mp hx with hxq | hxe
          · obtain ⟨hnd, hmem, -, hgx⟩ := hq x hxq
            exact ⟨hnd, discmono x hmem, hgx⟩
          · obtain ⟨hnd, hmem, hgx⟩ := ihmem x hxe
            refine ⟨fun hc => hnd ?_, hmem, hgx⟩
            rw [hext]
            exact List.mem_append_left _ hc

theorem crawlLoop_visits (w : World) (origin : String) :
    ∀ (budget : Nat) (frontier visited discovered : List String) (pv nl : Nat),
      ((crawlLoop w origin budget frontier visited discovered pv nl).visits.map
        Visit.url).Nodup ∧
      (∀ u ∈ (crawlLoop w origin budget frontier visited discovered pv nl).visits.map
        Visit.url, u ∉ visited) := by
  intro budget
  induction budget with
  | zero =>
    intro frontier visited discovered pv nl
    rcases hsk : skipVisited visited frontier with _ | ⟨url, rest⟩ <;>
      constructor <;> simp [crawlLoop, hsk]
  | succ b ih =>
    intro frontier visited discovered pv nl
    rcases hsk : skipVisited visited frontier with _ | ⟨url, rest⟩
    · constructor <;> simp [crawlLoop, hsk]
    · have heq := (show crawlLoop w origin (b + 1) frontier visited discovered pv nl = _
        from by rw [crawlLoop, hsk])
      dsimp only at heq
      have hnv : url ∉ visited := skipVisited_head hsk
      cases hpl : w.pageLinks url with
      | none =>
        rw [hpl] at heq
        dsimp only at heq
        rw [heq]
        dsimp only
        obtain ⟨ihnd, ihmem⟩ := ih rest (url :: visited) discovered (pv + 1) nl
        rw [List.map_cons]
        constructor
        · exact List.nodup_cons.mpr
            ⟨fun hc => (ihmem _ hc) (List.mem_cons_self url visited), ihnd⟩
        · intro u hu
          rcases List.mem_cons.mp hu with rfl | hu
          · exact hnv
          · exact fun hc => (ihmem u hu) (List.mem_cons_of_mem url hc)
      | some links =>
        rw [hpl] at heq
        dsimp only at heq
        rw [heq]
        dsimp only
        obtain ⟨ihnd, ihmem⟩ := ih
          (rest ++ (processLinks origin (url :: visited) discovered links).2.1)
          (url :: visited) (processLinks origin (url :: visited) discovered links).1
          (pv + 1) (nl + (processLinks origin (url :: visited) discovered links).2.2)
        rw [List.map_cons]
        constructor
        · exact List.nodup_cons.mpr
            ⟨fun hc => (ihmem _ hc) (List.mem_cons_self url visited), ihnd⟩
        · intro u hu
          rcases List.mem_cons.mp hu with rfl | hu
          · exact hnv
          · exact fun hc => (ihmem u hu) (List.mem_cons_of_mem url hc)

theorem crawlLoop_visit_events (w : World) (origin : String) :
    ∀ (budget : Nat) (frontier visited discovered : List String) (pv nl : Nat),
      ∀ v ∈ (crawlLoop w origin budget frontier visited discovered pv nl).visits,
        (v.idx % 5 = 1 ∨ 0 < v.newLinks) →
        ∃ t, Event.status "scanning" t 0 v.idx ∈
          (crawlLoop w origin budget frontier visited discovered pv nl).events := by
  intro budget
  induction budget with
  | zero =>
    intro frontier visited discovered pv nl v hv
    rcases hsk : skipVisited visited frontier with _ | ⟨url, rest⟩ <;>
      simp [crawlLoop, hsk] at hv
  | succ b ih =>
    intro frontier visited discovered pv nl v hv hcond
    rcases hsk : skipVisited visited frontier with _ | ⟨url, rest⟩
    · simp [crawlLoop, hsk] at hv
    · have heq := (show crawlLoop w origin (b + 1) frontier visited discovered pv nl = _
        from by rw [crawlLoop, hsk])
      dsimp only at heq
      cases hpl : w.pageLinks url with
      | none =>
        rw [hpl] at heq
        dsimp only at heq
        rw [heq] at hv ⊢
        dsimp only at hv ⊢
        rcases List.mem_cons.mp hv with rfl | hv
        · dsimp only at hcond
          rcases hcond with hmod | hpos
          · refine ⟨discovered.length, ?_⟩
            apply List.mem_append_left
            apply List.mem_append_left
            rw [if_pos (Or.inl hmod)]
            exact List.mem_singleton.mpr rfl
          · exact absurd hpos (by simp)
        · obtain ⟨t, ht⟩ := ih rest (url :: visited) discovered (pv + 1) nl v hv hcond
          exact ⟨t, List.mem_append_right _ ht⟩
      | some links =>
        rw [hpl] at heq
        dsimp only at heq
        rw [heq] at hv ⊢
        dsimp only at hv ⊢
        rcases List.mem_cons.mp hv with rfl | hv
        · dsimp only at hcond
          rcases hcond with hmod | hpos
          · refine ⟨discovered.length, ?_⟩
            apply List.mem_append_left
            apply List.mem_append_left
            apply List.mem_append_left
            rw [if_pos (Or.inl hmod)]
            exact List.mem_singleton.mpr rfl
          · refine ⟨(processLinks origin (url :: visited) discovered links).1.length, ?_⟩
            apply List.mem_append_left
            apply List.mem_append_left
            apply List.mem_append_right
            rw [if_pos hpos]
            exact List.mem_singleton.mpr rfl
        · obtain ⟨t, ht⟩ := ih
            (rest ++ (processLinks origin (url :: visited) discovered links).2.1)
            (url :: visited) (processLinks origin (url :: visited) discovered links).1
            (pv + 1) (nl + (processLinks origin (url :: visited) discovered links).2.2)
            v hv hcond
          exact ⟨t, List.mem_append_right _ ht⟩

theorem lexLE_total : ∀ a b : List Char, lexLE a b = true ∨ lexLE b a = true
  | [], _ => Or.inl rfl
  | _ :: _, [] => Or.inr rfl
  | a :: as, b :: bs => by
    by_cases h1 : a.toNat < b.toNat
    · exact Or.inl (by rw [lexLE, if_pos h1])
    · by_cases h2 : b.toNat < a.toNat
      · exact Or.inr (by rw [lexLE, if_pos h2])
      · rcases lexLE_total as bs with h | h
        · exact Or.inl (by rw [lexLE, if_neg h1, if_neg h2]; exact h)
        · exact Or.inr (by rw [lexLE, if_neg h2, if_neg h1]; exact h)

theorem lexLE_trans : ∀ a b c : List Char,
    lexLE a b = true → lexLE b c = true → lexLE a c = true
  | [], _, _, _, _ => rfl
  | _ :: _, [], _, h1, _ => absurd h1 (by rw [lexLE]; simp)
  | _ :: _, _ :: _, [], _, h2 => absurd h2 (by rw [lexLE]; simp)
  | a :: as, b :: bs, c :: cs, h1, h2 => by
    rw [lexLE] at h1 h2 ⊢
    by_cases hab : a.toNat < b.toNat <;> by_cases hbc : b.toNat < c.toNat
    · rw [if_pos (by omega : a.toNat < c.toNat)]
    · rw [if_neg hbc] at h2
      by_cases hcb : c.toNat < b.toNat
      · rw [if_pos hcb] at h2
        exact absurd h2 (by simp)
      · rw [if_pos (by omega : a.toNat < c.toNat)]
    · rw [if_neg hab] at h1
      by_cases hba : b.toNat < a.toNat
      · rw [if_pos hba] at h1
        exact absurd h1 (by simp)
      · rw [if_pos (by omega : a.toNat < c.toNat)]
    · rw [if_neg hab] at h1
      rw [if_neg hbc] at h2
      by_cases hba : b.toNat < a.toNat
      · rw [if_pos hba] at h1
        exact absurd h1 (by simp)
      · by_cases hcb : c.toNat < b.toNat
        · rw [if_pos hcb] at h2
          exact absurd h2 (by simp)
        · rw [if_neg hba] at h1
          rw [if_neg hcb] at h2
          rw [if_neg (by omega : ¬a.toNat < c.toNat),
            if_neg (by omega : ¬c.toNat < a.toNat)]
          exact lexLE_trans as bs cs h1 h2

theorem linkLE_parsed {a b : String} {ra rb : URLRec}
    (ha : parseURL a = some ra) (hb : parseURL b = some rb) :
    linkLE a b = (if pathDepth (pathnameOf ra) ≠ pathDepth (pathnameOf rb) then
      decide (pathDepth (pathnameOf ra) < pathDepth (pathnameOf rb))
    else lexLE (pathnameOf ra) (pathnameOf rb)) := by
  unfold linkLE
  rw [ha, hb]

theorem linkLE_total_of {a b : String} {ra rb : URLRec}
    (ha : parseURL a = some ra) (hb : parseURL b = some rb) :
    linkLE a b = true ∨ linkLE b a = true := by
  rw [linkLE_parsed ha hb, linkLE_parsed hb ha]
  by_cases heq : pathDepth (pathnameOf ra) = pathDepth (pathnameOf rb)
  · rw [if_neg (by omega), if_neg (by omega)]
    exact lexLE_total _ _
  · by_cases hlt : pathDepth (pathnameOf ra) < pathDepth (pathnameOf rb)
    · rw [if_pos (by omega)]
      exact Or.inl (by simpa using hlt)
    · rw [if_pos (by omega), if_pos (by omega)]
      right
      simp only [decide_eq_true_eq]
      omega

theorem linkLE_trans_of {a b c : String} {ra rb rc : URLRec}
    (ha : parseURL a = some ra) (hb : parseURL b = some rb)
    (hc : parseURL c = some rc)
    (h1 : linkLE a b = true) (h2 : linkLE b c = true) : linkLE a c = true := by
  rw [linkLE_parsed ha hb] at h1
  rw [linkLE_parsed hb hc] at h2
  rw [linkLE_parsed ha hc]
  by_cases hab : pathDepth (pathnameOf ra) = pathDepth (pathnameOf rb) <;>
    by_cases hbc : pathDepth (pathnameOf rb) = pathDepth (pathnameOf rc)
  · rw [if_neg (by omega)] at h1
    rw [if_neg (by omega)] at h2
    rw [if_neg (by omega)]
    exact lexLE_trans _ _ _ h1 h2
  · rw [if_pos (by omega)] at h2
    have : pathDepth (pathnameOf rb) < pathDepth (pathnameOf rc) := by simpa using h2
    rw [if_pos (by omega)]
    simp only [decide_eq_true_eq]
    omega
  · rw [if_pos (by omega)] at h1
    have : pathDepth (pathnameOf ra) < pathDepth (pathnameOf rb) := by simpa using h1
    rw [if_pos (by omega)]
    simp only [decide_eq_true_eq]
    omega
  · rw [if_pos (by omega)] at h1
    rw [if_pos (by omega)] at h2
    have hd1 : pathDepth (pathnameOf ra) < pathDepth (pathnameOf rb) := by simpa using h1
    have hd2 : pathDepth (pathnameOf rb) < pathDepth (pathnameOf rc) := by simpa using h2
    rw [if_pos (by omega)]
    simp only [decide_eq_true_eq]
    omega

theorem pairwise_orderedInsert_parsed {x : String} {rx : URLRec}
    (hx : parseURL x = some rx) :
    ∀ l : List String, (∀ y ∈ l, ∃ ry, parseURL y = some ry) → l.Pairwise linkRel →
      (List.orderedInsert linkRel x l).Pairwise linkRel := by
  intro l
  induction l with
  | nil =>
    intro _ _
    simp [List.orderedInsert]
  | cons y l ih =>
    intro hall hp
    obtain ⟨ry, hy⟩ := hall y (by simp)
    rw [List.orderedInsert]
    split
    · next hxy =>
      refine List.pairwise_cons.mpr ⟨?_, hp⟩
      intro z hz
      rcases List.mem_cons.mp hz with rfl | hz
      · exact hxy
      · obtain ⟨rz, hrz⟩ := hall z (List.mem_cons_of_mem y hz)
        exact linkLE_trans_of hx hy hrz hxy ((List.pairwise_cons.mp hp).1 z hz)
    · next hxy =>
      have hyx : linkRel y x := by
        rcases linkLE_total_of hx hy with h | h
        · exact absurd h hxy
        · exact h
      refine List.pairwise_cons.mpr ⟨?_, ih
        (fun z hz => hall z (List.mem_cons_of_mem y hz))
        (List.pairwise_cons.mp hp).2⟩
      intro z hz
      rcases (List.mem_orderedInsert linkRel).mp hz with rfl | hz
      · exact hyx
      · exact (List.pairwise_cons.mp hp).1 z hz

theorem pairwise_sortLinks_parsed :
    ∀ l : List String, (∀ y ∈ l, ∃ ry, parseURL y = some ry) →
      (sortLinks l).Pairwise linkRel := by
  intro l
  induction l with
  | nil =>
    intro _
    simp [sortLinks, List.insertionSort]
  | cons x l ih =>
    intro hall
    obtain ⟨rx, hx⟩ := hall x (by simp)
    show (List.insertionSort linkRel (x :: l)).Pairwise linkRel
    rw [List.insertionSort]
    apply pairwise_orderedInsert_parsed hx
    · intro y hy
      exact hall y (List.mem_cons_of_mem x ((List.mem_insertionSort linkRel).mp hy))
    · exact ih (fun y hy => hall y (List.mem_cons_of_mem x hy))

/-- Path of a URL string as used by the sort comparator (the raw characters
on parse failure). -/
def pathOf (s : String) : List Char :=
  match parseURL s with
  | some r => pathnameOf r
  | none => s.data

/-- Depth of a URL string's path. -/
def depthOf (s : String) : Nat := pathDepth (pathOf s)

/-- Spec-side order on discovered links: path depth ascending, then
lexicographic on the pathname. -/
def depthLex (a b : String) : Prop :=
  depthOf a < depthOf b ∨ (depthOf a = depthOf b ∧ lexLE (pathOf a) (pathOf b) = true)

theorem sitemapBatches_events (w : World) (origin : String) :
    ∀ (batches : List (List String)) (disc : List String) (cnt : Nat),
      ∀ e ∈ (sitemapBatches w origin batches disc cnt).events,
        ∃ t fs ps, e = Event.status "sitemap" t fs ps := by
  intro batches
  induction batches with
  | nil => intro disc cnt e he; simp [sitemapBatches] at he
  | cons batch more ih =>
    intro disc cnt e he
    simp only [sitemapBatches, List.mem_cons] at he
    rcases he with rfl | he
    · exact ⟨_, _, _, rfl⟩
    · exact ih _ _ e he

theorem discoverSitemap_done {w : World} {origin : String} {d0 : List String}
    {su : String}
    (horig : ∀ x : String, jsStartsWith x origin = true → ∃ rx, parseURL x = some rx)
    {l : List String} {t fs fp ps : Nat}
    (h : Event.done l t fs fp ps ∈ (discoverSitemap w origin d0 su).events) :
    ∃ disc, l = sortLinks disc ∧ t = (sortLinks disc).length ∧
      (∀ x ∈ d0, x ∈ disc) ∧ (∀ x ∈ disc, x ∈ d0 ∨ GoodUrl x) := by
  unfold discoverSitemap at h
  cases hf : w.fetchXml su with
  | none =>
    rw [hf] at h
    simp at h
  | some xml =>
    rw [hf] at h
    dsimp only at h
    by_cases hidx : isSitemapIndex xml = true
    · rw [if_pos hidx] at h
      dsimp only at h
      simp only [List.mem_append, List.mem_cons, List.not_mem_nil, or_false,
        List.mem_singleton] at h
      rcases h with ((h | h | h) | h) | h | h
      · exact absurd h (by simp)
      · exact absurd h (by simp)
      · exact absurd h (by simp)
      · obtain ⟨t', ps', he⟩ := sitemapBatches_events w origin _ _ _ _ h
        exact absurd he (by simp)
      · exact absurd h (by simp)
      · simp only [Event.done.injEq] at h
        obtain ⟨h1, h2, -, -, -⟩ := h
        refine ⟨(sitemapBatches w origin (chunksOf5 (extractSitemapUrls xml)) d0
          0).discovered, h1, h2, ?_, ?_⟩
        · intro x hx
          exact sitemapBatches_mono w origin _ _ _ x hx
        · intro x hx
          exact sitemapBatches_good w origin horig _ _ _ x hx
    · rw [if_neg hidx] at h
      dsimp only at h
      simp only [List.mem_cons, List.not_mem_nil, or_false] at h
      rcases h with h | h | h | h | h
      · exact absurd h (by simp)
      · exact absurd h (by simp)
      · exact absurd h (by simp)
      · exact absurd h (by simp)
      · simp only [Event.done.injEq] at h
        obtain ⟨h1, h2, -, -, -⟩ := h
        refine ⟨(addSitemapUrls origin (parseSitemapUrls xml) d0 0).1, h1, h2, ?_, ?_⟩
        · intro x hx
          exact addSitemapUrls_mono origin _ _ _ x hx
        · intro x hx
          exact addSitemapUrls_good origin horig _ _ _ x hx

theorem discoverBrowser_done {w : World} {startUrl origin : String}
    {d0 : List String}
    (horig : ∀ x : String, jsStartsWith x origin = true → ∃ rx, parseURL x = some rx)
    {l : List String} {t fs fp ps : Nat}
    (h : Event.done l t fs fp ps ∈ (discoverBrowser w startUrl origin d0).events) :
    ∃ disc, l = sortLinks disc ∧ t = (sortLinks disc).length ∧
      (∀ x ∈ d0, x ∈ disc) ∧ (∀ x ∈ disc, x ∈ d0 ∨ GoodUrl x) := by
  unfold discoverBrowser at h
  dsimp only at h
  simp only [List.mem_append, List.mem_cons, List.not_mem_nil, or_false,
    List.mem_singleton] at h
  rcases h with ((h | h) | h) | h
  · exact absurd h (by simp)
  · exact absurd h (by simp)
  · obtain ⟨t', ps', he⟩ := crawlLoop_events_status w origin _ _ _ _ _ _ _ h
    exact absurd he (by simp)
  · simp only [Event.done.injEq] at h
    obtain ⟨h1, h2, -, -, -⟩ := h
    refine ⟨(crawlLoop w origin MAX_PAGES_SAFETY [startUrl] [] d0 0 0).discovered,
      h1, h2, ?_, ?_⟩
    · intro x hx
      exact (crawlLoop_disc w origin horig MAX_PAGES_SAFETY [startUrl] [] d0 0 0).1 x hx
    · intro x hx
      exact (crawlLoop_disc w origin horig MAX_PAGES_SAFETY [startUrl] [] d0 0 0).2 x hx

/-- Every `done` event of a discovery run carries the sorted form of the
final discovered set; that set contains the canonicalized start URL and only
strings that parse as URLs. -/
theorem done_shape {w : World} {s : String} {sm : Option String}
    {l : List String} {t fs fp ps : Nat}
    (h : Event.done l t fs fp ps ∈ (discover w s sm).events) :
    ∃ disc, l = sortLinks disc ∧ t = (sortLinks disc).length ∧
      cleanUrl s ∈ disc ∧ (∀ x ∈ disc, ∃ rx, parseURL x = some rx) := by
  unfold discover at h
  cases hp : parseURL s with
  | none =>
    rw [hp] at h
    simp at h
  | some r =>
    rw [hp] at h
    dsimp only at h
    have horig : ∀ x : String, jsStartsWith x (originOf r) = true →
        ∃ rx, parseURL x = some rx := fun x hx => parse_of_origin_pre hp hx
    have hclean : ∃ rc, parseURL (cleanUrl s) = some rc := ⟨_, parse_cleanUrl hp⟩
    cases sm with
    | some su =>
      obtain ⟨disc, h1, h2, h3, h4⟩ := discoverSitemap_done horig h
      refine ⟨disc, h1, h2, h3 _ (by simp), ?_⟩
      intro x hx
      rcases h4 x hx with hx0 | hgx
      · rw [List.mem_singleton] at hx0
        subst hx0
        exact hclean
      · exact hgx.1
    | none =>
      obtain ⟨disc, h1, h2, h3, h4⟩ := discoverBrowser_done horig h
      refine ⟨disc, h1, h2, h3 _ (by simp), ?_⟩
      intro x hx
      rcases h4 x hx with hx0 | hgx
      · rw [List.mem_singleton] at hx0
        subst hx0
        exact hclean
      · exact hgx.1

theorem linkRel_implies_depthLex {a b : String} {ra rb : URLRec}
    (ha : parseURL a = some ra) (hb : parseURL b = some rb)
    (h : linkRel a b) : depthLex a b := by
  have h' : linkLE a b = true := h
  rw [linkLE_parsed ha hb] at h'
  have hpa : pathOf a = pathnameOf ra := by unfold pathOf; rw [ha]
  have hpb : pathOf b = pathnameOf rb := by unfold pathOf; rw [hb]
  unfold depthLex depthOf
  rw [hpa, hpb]
  by_cases hne : pathDepth (pathnameOf ra) ≠ pathDepth (pathnameOf rb)
  · rw [if_pos hne] at h'
    exact Or.inl (by simpa using h')
  · rw [if_neg hne] at h'
    exact Or.inr ⟨by omega, h'⟩

/-! ## Claims C9, C10, C7, C1, C5 -/

/-- Claim C9: every `done` event emitted by the discovery endpoint, in either
mode, reports a `total` equal to the length of its `links` array. -/
theorem claim_C9 (w : World) (s : String) (sm : Option String)
    (l : List String) (t fs fp ps : Nat)
    (h : Event.done l t fs fp ps ∈ (discover w s sm).events) : t = l.length := by
  obtain ⟨disc, h1, h2, -, -⟩ := done_shape h
  rw [h1, h2]

/-- Witness for claim C9 on the concrete sitemap-index run. -/
theorem claim_C9_witness :
    7 = (["http://ex.com/", "http://ex.com/a", "http://ex.com/b", "http://ex.com/c",
      "http://ex.com/d", "http://ex.com/e", "http://ex.com/f"] : List String).length :=
  claim_C9 w4 "http://ex.com/" (some "http://ex.com/sitemap.xml")
    ["http://ex.com/", "http://ex.com/a", "http://ex.com/b", "http://ex.com/c",
      "http://ex.com/d", "http://ex.com/e", "http://ex.com/f"] 7 6 0 0 (by decide)

/-- Claim C10: whenever the discovery endpoint emits a `done` event, in
either mode, its links array contains the canonicalized start URL
`cleanUrl(startUrl)`. -/
theorem claim_C10 (w : World) (s : String) (sm : Option String)
    (l : List String) (t fs fp ps : Nat)
    (h : Event.done l t fs fp ps ∈ (discover w s sm).events) : cleanUrl s ∈ l := by
  obtain ⟨disc, h1, -, h3, -⟩ := done_shape h
  rw [h1]
  exact (List.mem_insertionSort linkRel).mpr h3

/-- Witness for claim C10 on the concrete sitemap-index run. -/
theorem claim_C10_witness :
    cleanUrl "http://ex.com/" ∈
      (["http://ex.com/", "http://ex.com/a", "http://ex.com/b", "http://ex.com/c",
        "http://ex.com/d", "http://ex.com/e", "http://ex.com/f"] : List String) :=
  claim_C10 w4 "http://ex.com/" (some "http://ex.com/sitemap.xml")
    ["http://ex.com/", "http://ex.com/a", "http://ex.com/b", "http://ex.com/c",
      "http://ex.com/d", "http://ex.com/e", "http://ex.com/f"] 7 6 0 0 (by decide)

/-- Claim C7: the links list of every `done` event is sorted by path depth
ascending, then lexicographically by pathname; in particular a run whose
discovered URLs have paths `/a/b`, `/a`, `/c/d/e`, `/` delivers them ordered
`/`, `/a`, `/a/b`, `/c/d/e`. -/
theorem claim_C7 :
    (∀ (w : World) (s : String) (sm : Option String) (l : List String)
      (t fs fp ps : Nat), Event.done l t fs fp ps ∈ (discover w s sm).events →
        l.Pairwise depthLex) ∧
    Event.done ["http://s/", "http://s/a", "http://s/a/b", "http://s/c/d/e"] 4 0 3 4 ∈
      (discover w7 "http://s/" none).events := by
  constructor
  · intro w s sm l t fs fp ps h
    obtain ⟨disc, h1, -, -, h4⟩ := done_shape h
    subst h1
    have hsorted := pairwise_sortLinks_parsed disc h4
    have hallp : ∀ y ∈ sortLinks disc, ∃ ry, parseURL y = some ry :=
      fun y hy => h4 y ((List.mem_insertionSort linkRel).mp hy)
    refine hsorted.imp_of_mem ?_
    intro a b ha hb hab
    obtain ⟨ra, hra⟩ := hallp a ha
    obtain ⟨rb, hrb⟩ := hallp b hb
    exact linkRel_implies_depthLex hra hrb hab
  · decide

/-- Witness for claim C7's sortedness half, at the concrete browser-crawl
run of `w7`. -/
theorem claim_C7_witness :
    (["http://s/", "http://s/a", "http://s/a/b", "http://s/c/d/e"] :
      List String).Pairwise depthLex :=
  claim_C7.1 w7 "http://s/" none
    ["http://s/", "http://s/a", "http://s/a/b", "http://s/c/d/e"] 4 0 3 4 claim_C7.2

/-- Claim C1: in browser-crawl discovery every URL enters the frontier at
most once per run (the full enqueue log — the initial start URL plus every
`pagesToVisit.push` — has no duplicates, which also means a URL moved to
Visited is never re-queued), and no page is visited twice. -/
theorem claim_C1 (w : World) (s : String) (r : URLRec) (h : parseURL s = some r) :
    (discover w s none).enqueueLog.Nodup ∧
    ((discover w s none).visitLog.map Visit.url).Nodup := by
  unfold discover
  rw [h]
  dsimp only
  unfold discoverBrowser
  dsimp only
  have horig : ∀ x : String, jsStartsWith x (originOf r) = true →
      ∃ rx, parseURL x = some rx := fun x hx => parse_of_origin_pre h hx
  obtain ⟨hnd, hmem⟩ :=
    crawlLoop_enq w (originOf r) horig MAX_PAGES_SAFETY [s] [] [cleanUrl s] 0 0
  constructor
  · rw [List.nodup_cons]
    refine ⟨?_, hnd⟩
    intro hc
    obtain ⟨hnd0, -, hgood⟩ := hmem s hc
    by_cases hh : '#' ∈ s.data
    · exact hgood.2.2 hh
    · exact hnd0 (by simp [cleanUrl_of_noHash h hh])
  · exact (crawlLoop_visits w (originOf r) MAX_PAGES_SAFETY [s] [] [cleanUrl s] 0 0).1

/-- Witness for claim C1 on the concrete browser-crawl world `w5`. -/
theorem claim_C1_witness :
    (discover w5 "http://s/" none).enqueueLog.Nodup ∧
    ((discover w5 "http://s/" none).visitLog.map Visit.url).Nodup :=
  claim_C1 w5 "http://s/" ⟨"http".data, "s/".data, none⟩ (by decide)

/-- Counterexample to claim C5 as stated: on world `w5` three pages are
visited, but no status event at all carries `pagesScanned = 2` — no progress
event is emitted after the second visited page, because per-page statuses
are only sent when `pagesVisited % 5 = 1` and the second page discovered no
new links. -/
theorem claim_C5_counterexample :
    (discover w5 "http://s/" none).visitLog.length = 3 ∧
    (discover w5 "http://s/" none).events.filter
      (fun e => match e with | Event.status _ _ _ 2 => true | _ => false) = [] := by
  constructor
  · decide
  · decide

/-- Claim C5 (amended): in browser-crawl mode a scanning status event is
emitted for a visited page when its 1-based index `i` satisfies
`i % 5 = 1` (the 1st, 6th, 11th, … page — not after every page), an
additional status is emitted whenever that page's link extraction grew the
discovered set, and a completion (`done`) event is emitted when the loop
ends (frontier empty or the 5000-page safety cap reached). -/
theorem claim_C5_amended (w : World) (s : String) (r : URLRec)
    (h : parseURL s = some r) :
    (∀ v ∈ (discover w s none).visitLog, (v.idx % 5 = 1 ∨ 0 < v.newLinks) →
      ∃ t, Event.status "scanning" t 0 v.idx ∈ (discover w s none).events) ∧
    (∃ l t fs fp ps, Event.done l t fs fp ps ∈ (discover w s none).events) := by
  unfold discover
  rw [h]
  dsimp only
  unfold discoverBrowser
  dsimp only
  constructor
  · intro v hv hcond
    obtain ⟨t, ht⟩ := crawlLoop_visit_events w (originOf r) MAX_PAGES_SAFETY [s] []
      [cleanUrl s] 0 0 v hv hcond
    refine ⟨t, ?_⟩
    apply List.mem_append_left
    exact List.mem_append_right _ ht
  · exact ⟨_, _, _, _, _, List.mem_append_right _ (List.mem_singleton.mpr rfl)⟩

/-- Witness for the amended claim C5 on the concrete world `w5`. -/
theorem claim_C5_witness :
    ∃ l t fs fp ps, Event.done l t fs fp ps ∈ (discover w5 "http://s/" none).events :=
  (claim_C5_amended w5 "http://s/" ⟨"http".data, "s/".data, none⟩ (by decide)).2

end PageMedic

